import Mathlib

/-!
Shallow embedding of the Metropolis sampler from
`posts/a-bayesian-tutorial-in-python-part-II.ipynb` (functions `mcmc`,
`get_log_lik`, `get_log_prior`), together with proofs of the spec's claims
about it.

Modelling choices:
* Real-valued data and parameters are modelled by `ℝ`.
* The two pseudorandom sources consumed by the loop (`norm.rvs` for the
  proposal and `uniform.rvs` for the acceptance test) are modelled by a
  `RandStream`: one indexed stream of standard-normal draws (the proposal at
  iteration `i` is `previous + 0.1 * propNoise i`, matching
  `norm.rvs(loc=prev, scale=0.1)`) and one indexed stream of uniform draws.
  A fixed seed of the global generator corresponds to a fixed `RandStream`.
* The NumPy trace array with its index assignments is modelled by a `List ℝ`
  with an explicit bounds-checked write `setAt` returning `Option`; an
  out-of-bounds write (NumPy `IndexError`) is `none`.
* The `np.nan` initial fill of the trace array is modelled by an arbitrary
  placeholder value: `ℝ` has no NaN, and every returned entry is overwritten
  by the loop before the array is returned, so the placeholder never escapes
  (this is itself proved by `mcmc_eq_traceList`, whose right-hand side does
  not mention the placeholder).
-/

/-- The two streams of pseudorandom draws consumed by one `mcmc` run:
`propNoise i` is the standard-normal draw scaled into the proposal of
iteration `i`, and `unif i` is the uniform draw of iteration `i`. -/
structure RandStream where
  propNoise : ℕ → ℝ
  unif : ℕ → ℝ

/-- The parameter dictionary `dict(μ=..., σ=...)` built in `mcmc` and read by
`get_log_lik` and `get_log_prior`. -/
structure ParamDict where
  μ : ℝ
  σ : ℝ

/-- The log of the Gaussian probability density with mean `loc` and standard
deviation `scale` at `x`: SciPy's `norm.logpdf(x, loc, scale)`. -/
noncomputable def normLogpdf (x loc scale : ℝ) : ℝ :=
  -((x - loc) ^ 2 / (2 * scale ^ 2)) - Real.log (scale * Real.sqrt (2 * Real.pi))

/-- The Gaussian probability density with mean `loc` and standard deviation
`scale` at `x` (used to state the prior-density-ratio claim). -/
noncomputable def normPdf (x loc scale : ℝ) : ℝ :=
  Real.exp (-((x - loc) ^ 2 / (2 * scale ^ 2))) / (scale * Real.sqrt (2 * Real.pi))

/-- `get_log_lik(data, param_dict)`: the sum over all observations of the
Gaussian log-density with mean `param_dict['μ']` and standard deviation
`param_dict['σ']`. -/
noncomputable def get_log_lik (data : List ℝ) (param_dict : ParamDict) : ℝ :=
  (data.map (fun x => normLogpdf x param_dict.μ param_dict.σ)).sum

/-- `get_log_prior(par_dict, loc=1, scale=1)`: the Gaussian log-density of the
candidate mean under the `N(loc, scale)` prior.  The source always calls it
with the default arguments `loc=1, scale=1`. -/
noncomputable def get_log_prior (par_dict : ParamDict) (loc scale : ℝ) : ℝ :=
  normLogpdf par_dict.μ loc scale

/-- Bounds-checked write `l[i] = v` on the trace array: NumPy raises
`IndexError` when `i` is out of range, modelled by `none`. -/
def setAt (l : List ℝ) (i : ℕ) (v : ℝ) : Option (List ℝ) :=
  if i < l.length then some (l.set i v) else none

/-- One iteration of the `for i in range(1, n_samples)` loop body of `mcmc`:
read `trace_μ[i-1]`, draw the proposal, compute both unnormalized
log-posteriors and the acceptance ratio, and write either the proposal or the
previous value into `trace_μ[i]`. -/
noncomputable def mcmcIter (data : List ℝ) (σ : ℝ) (rs : RandStream) (i : ℕ)
    (trace : List ℝ) : Option (List ℝ) :=
  match trace.get? (i - 1) with
  | none => none
  | some prev =>
      let proposed : ℝ := prev + 0.1 * rs.propNoise i
      let prop_par_dict : ParamDict := ⟨proposed, σ⟩
      let curr_par_dict : ParamDict := ⟨prev, σ⟩
      let log_prob_prop : ℝ := get_log_lik data prop_par_dict + get_log_prior prop_par_dict 1 1
      let log_prob_curr : ℝ := get_log_lik data curr_par_dict + get_log_prior curr_par_dict 1 1
      let ratio : ℝ := Real.exp (log_prob_prop - log_prob_curr)
      if ratio > 1 then setAt trace i proposed
      else if rs.unif i > ratio then setAt trace i prev
      else setAt trace i proposed

/-- `mcmcWrites data σ rs i k trace` runs the loop body at indices
`i, i+1, ..., i+k-1` (the tail of `for i in range(1, n_samples)`). -/
noncomputable def mcmcWrites (data : List ℝ) (σ : ℝ) (rs : RandStream) :
    ℕ → ℕ → List ℝ → Option (List ℝ)
  | _, 0, trace => some trace
  | i, Nat.succ k, trace =>
      (mcmcIter data σ rs i trace).bind (fun t => mcmcWrites data σ rs (i + 1) k t)

/-- Placeholder for the `np.nan` initial fill of the trace array (`ℝ` has no
NaN; the loop overwrites every returned entry, see `mcmc_eq_traceList`). -/
def nanPlaceholder : ℝ := 0

/-- `mcmc(data, μ_0, n_samples)` with an explicit random source: allocate the
trace array, write the initial guess into entry 0, run the loop from index 1,
and return the trace.  `σ` is fixed to `0.75` inside the function body, as in
the source. -/
noncomputable def mcmc (data : List ℝ) (μ0 : ℝ) (n_samples : ℕ) (rs : RandStream) :
    Option (List ℝ) :=
  let σ : ℝ := 0.75
  (setAt (List.replicate n_samples nanPlaceholder) 0 μ0).bind
    (fun trace => mcmcWrites data σ rs 1 (n_samples - 1) trace)

/-- The proposal drawn at iteration `i` from the previous chain value:
`norm.rvs(loc=prev, scale=0.1)`. -/
noncomputable def proposalAt (rs : RandStream) (i : ℕ) (prev : ℝ) : ℝ :=
  prev + 0.1 * rs.propNoise i

/-- The unnormalized log-posterior used by `mcmc` at a candidate mean `m`:
log-likelihood of all observations plus log-prior, both through the parameter
dictionary with the run's `σ`. -/
noncomputable def logPost (data : List ℝ) (σ m : ℝ) : ℝ :=
  get_log_lik data ⟨m, σ⟩ + get_log_prior ⟨m, σ⟩ 1 1

/-- The acceptance ratio computed at iteration `i` when the previous chain
value is `prev`: `np.exp(log_prob_prop - log_prob_curr)`. -/
noncomputable def ratioAt (data : List ℝ) (σ : ℝ) (rs : RandStream) (i : ℕ) (prev : ℝ) : ℝ :=
  Real.exp (logPost data σ (proposalAt rs i prev) - logPost data σ prev)

/-- The value written into `trace_μ[i]` by iteration `i` when the previous
chain value is `prev`: the proposal if the ratio exceeds 1, otherwise the
previous value exactly when the uniform draw exceeds the ratio, and the
proposal otherwise. -/
noncomputable def stepVal (data : List ℝ) (σ : ℝ) (rs : RandStream) (i : ℕ) (prev : ℝ) : ℝ :=
  if ratioAt data σ rs i prev > 1 then proposalAt rs i prev
  else if rs.unif i > ratioAt data σ rs i prev then prev
  else proposalAt rs i prev

/-- The chain value at index `i`, as a recursive function: entry 0 is the
initial guess, entry `i+1` is produced by the loop body from entry `i`. -/
noncomputable def traceVal (data : List ℝ) (σ : ℝ) (rs : RandStream) (μ0 : ℝ) : ℕ → ℝ
  | 0 => μ0
  | Nat.succ i => stepVal data σ rs (i + 1) (traceVal data σ rs μ0 i)

/-- Stated from the spec's words for the refinement claim about the ratio:
"the sum over all observations of the Gaussian log-density with mean m and the
fixed observation standard deviation, plus the Gaussian log-prior density
of m" (observation standard deviation 0.75, prior N(1,1)). -/
noncomputable def logPostSpec (data : List ℝ) (m : ℝ) : ℝ :=
  (data.map (fun x => normLogpdf x m 0.75)).sum + normLogpdf m 1 1

/-- A concrete all-zero random source, used to instantiate theorems with
hypotheses at explicit inputs. -/
def rsZero : RandStream where
  propNoise := fun _ => 0
  unif := fun _ => 0

/-- A second random source, pointwise equal to `rsZero` but not syntactically
identical, used to instantiate the determinism theorem. -/
def rsZero2 : RandStream where
  propNoise := fun _ => 0 + 0
  unif := fun _ => 0 * 1

/-- A concrete random source exhibiting the boundary case of the acceptance
test: the proposal noise is 1, and the uniform draw of every iteration equals
exactly the acceptance ratio that iteration 1 computes when the chain starts
at the prior mean 1 with no observations. -/
noncomputable def rsTie : RandStream where
  propNoise := fun _ => 1
  unif := fun _ =>
    Real.exp (logPost [] 0.75 (1 + 0.1 * 1) - logPost [] 0.75 1)

/-- When the read of `trace_μ[i-1]` succeeds and the write index `i` is in
bounds, one loop iteration writes exactly `stepVal` of the previous value. -/
lemma mcmcIter_eq (data : List ℝ) (σ : ℝ) (rs : RandStream) (i : ℕ) (trace : List ℝ)
    (prev : ℝ) (hget : trace.get? (i - 1) = some prev) (hi : i < trace.length) :
    mcmcIter data σ rs i trace = some (trace.set i (stepVal data σ rs i prev)) := by
  unfold mcmcIter
  rw [hget]
  simp only [stepVal, ratioAt, logPost, proposalAt, setAt, hi, if_true]
  split_ifs <;> rfl

/-- Running the tail of the loop from index `i` on a trace of length `i + k`
whose first `i` entries already agree with `traceVal` produces the full
`traceVal` listing of the trace's length. -/
lemma mcmcWrites_eq (data : List ℝ) (σ : ℝ) (rs : RandStream) (μ0 : ℝ) :
    ∀ (k i : ℕ) (trace : List ℝ), 1 ≤ i → i + k = trace.length →
    (∀ j, j < i → trace.get? j = some (traceVal data σ rs μ0 j)) →
    mcmcWrites data σ rs i k trace =
      some ((List.range trace.length).map (traceVal data σ rs μ0)) := by
  intro k
  induction k with
  | zero =>
      intro i trace hi hlen hagree
      simp only [mcmcWrites]
      congr 1
      apply List.ext_get?
      intro j
      rcases lt_or_le j trace.length with hj | hj
      · rw [hagree j (by omega), List.get?_map, List.get?_range hj]
        rfl
      · rw [List.get?_eq_none.mpr hj, List.get?_eq_none.mpr (by simpa using hj)]
  | succ k ih =>
      intro i trace hi hlen hagree
      have hilt : i < trace.length := by omega
      have hprev : trace.get? (i - 1) = some (traceVal data σ rs μ0 (i - 1)) :=
        hagree (i - 1) (by omega)
      have hstep : stepVal data σ rs i (traceVal data σ rs μ0 (i - 1)) =
          traceVal data σ rs μ0 i := by
        obtain ⟨i', rfl⟩ : ∃ i', i = i' + 1 := ⟨i - 1, by omega⟩
        simp [traceVal]
      simp only [mcmcWrites, mcmcIter_eq data σ rs i trace _ hprev hilt, hstep,
        Option.bind_some]
      have := ih (i + 1) (trace.set i (traceVal data σ rs μ0 i)) (by omega)
        (by simpa using by omega)
        (by
          intro j hj
          rcases eq_or_ne j i with rfl | hne
          · rw [List.get?_set_eq_of_lt _ hilt]
          · rw [List.get?_set_ne _ _ (Ne.symm hne)]
            exact hagree j (by omega))
      simpa using this

/-- For `n_samples ≥ 1` the sampler succeeds and returns exactly the list of
the `traceVal` chain values at indices `0, ..., n_samples - 1`. -/
lemma mcmc_eq_traceList (data : List ℝ) (μ0 : ℝ) (n : ℕ) (rs : RandStream) (h : 1 ≤ n) :
    mcmc data μ0 n rs = some ((List.range n).map (traceVal data 0.75 rs μ0)) := by
  have hlen : (List.replicate n nanPlaceholder).length = n := List.length_replicate n _
  have h0 : 0 < (List.replicate n nanPlaceholder).length := by omega
  unfold mcmc
  simp only [setAt, h0, if_true, Option.bind_some]
  have := mcmcWrites_eq data 0.75 rs μ0 (n - 1) 1
    ((List.replicate n nanPlaceholder).set 0 μ0) le_rfl
    (by simp; omega)
    (by
      intro j hj
      have hj0 : j = 0 := by omega
      subst hj0
      rw [List.get?_set_eq_of_lt _ h0]
      rfl)
  simpa using this

/-- With `n_samples = 0` the write of the initial guess into entry 0 of the
empty trace array is out of bounds and the call fails. -/
lemma mcmc_zero (data : List ℝ) (μ0 : ℝ) (rs : RandStream) :
    mcmc data μ0 0 rs = none := rfl

/-- The chain values depend on the random source only through the draws it
produces: pointwise-equal streams generate identical chains. -/
lemma traceVal_stream_congr (data : List ℝ) (σ : ℝ) (rs1 rs2 : RandStream) (μ0 : ℝ)
    (hp : ∀ i, rs1.propNoise i = rs2.propNoise i)
    (hu : ∀ i, rs1.unif i = rs2.unif i) :
    ∀ i, traceVal data σ rs1 μ0 i = traceVal data σ rs2 μ0 i := by
  intro i
  induction i with
  | zero => rfl
  | succ i ih => simp only [traceVal, stepVal, ratioAt, proposalAt, hp, hu, ih]

/-- The log-likelihood is a sum over the observation list, hence invariant
under permuting the observations. -/
lemma get_log_lik_perm (data1 data2 : List ℝ) (h : data1.Perm data2) (p : ParamDict) :
    get_log_lik data1 p = get_log_lik data2 p :=
  (h.map _).sum_eq

/-- Chain values are invariant under permuting the observations. -/
lemma traceVal_perm (data1 data2 : List ℝ) (σ : ℝ) (rs : RandStream) (μ0 : ℝ)
    (h : data1.Perm data2) :
    ∀ i, traceVal data1 σ rs μ0 i = traceVal data2 σ rs μ0 i := by
  have hlp : ∀ m, logPost data1 σ m = logPost data2 σ m := by
    intro m
    simp only [logPost, get_log_lik_perm data1 data2 h]
  intro i
  induction i with
  | zero => rfl
  | succ i ih => simp only [traceVal, stepVal, ratioAt, hlp, ih]

/-- Exponentiating the Gaussian log-density recovers the Gaussian density,
for positive scale. -/
lemma exp_normLogpdf (x loc scale : ℝ) (h : 0 < scale) :
    Real.exp (normLogpdf x loc scale) = normPdf x loc scale := by
  have hc : (0 : ℝ) < scale * Real.sqrt (2 * Real.pi) := by positivity
  rw [normLogpdf, normPdf, sub_eq_add_neg, Real.exp_add, Real.exp_neg, Real.exp_neg,
    Real.exp_log hc, div_eq_mul_inv, div_eq_mul_inv]

/-- On an empty observation list the log-likelihood is the empty sum. -/
lemma get_log_lik_nil (p : ParamDict) : get_log_lik [] p = 0 := rfl

/-- C2: at every iteration the acceptance ratio computed by the sampler equals
the exponential of L(proposed) - L(previous), where L(m) is the sum over all
observations of the Gaussian log-density with mean m and the fixed observation
standard deviation, plus the Gaussian log-prior density of m. -/
theorem mcmc_ratio_eq_exp_logPost_diff (data : List ℝ) (rs : RandStream) (i : ℕ)
    (prev : ℝ) :
    ratioAt data 0.75 rs i prev =
      Real.exp (logPostSpec data (proposalAt rs i prev) - logPostSpec data prev) := rfl

/-- C3: for every observation list, initial mean, random source and
`n_samples ≥ 1`, the sampler succeeds and returns a chain of length exactly
`n_samples`. -/
theorem mcmc_chain_length (data : List ℝ) (μ0 : ℝ) (n : ℕ) (rs : RandStream)
    (h : 1 ≤ n) :
    ∃ c, mcmc data μ0 n rs = some c ∧ c.length = n :=
  ⟨_, mcmc_eq_traceList data μ0 n rs h, by simp⟩

/-- Witness for C3 at a concrete input. -/
theorem mcmc_chain_length_witness :
    1 ≤ 3 ∧ ∃ c, mcmc [] 0 3 rsZero = some c ∧ c.length = 3 :=
  ⟨by norm_num, mcmc_chain_length [] 0 3 rsZero (by norm_num)⟩

/-- C4: for every invocation with `n_samples ≥ 1`, entry 0 of the returned
chain equals the supplied initial mean. -/
theorem mcmc_first_entry (data : List ℝ) (μ0 : ℝ) (n : ℕ) (rs : RandStream)
    (h : 1 ≤ n) :
    ∃ c, mcmc data μ0 n rs = some c ∧ c.get? 0 = some μ0 :=
  ⟨_, mcmc_eq_traceList data μ0 n rs h, by
    rw [List.get?_map, List.get?_range h]
    rfl⟩

/-- Witness for C4 at a concrete input. -/
theorem mcmc_first_entry_witness :
    1 ≤ 1 ∧ ∃ c, mcmc [] 5 1 rsZero = some c ∧ c.get? 0 = some 5 :=
  ⟨by norm_num, mcmc_first_entry [] 5 1 rsZero (by norm_num)⟩

/-- C7: with an empty observation list the sampler degenerates to prior-only
behavior: the log-likelihood term is zero for every parameter dictionary, and
at every iteration the acceptance ratio equals the ratio of the Gaussian
`N(1,1)` prior densities of the proposed and the previous mean. -/
theorem mcmc_empty_data_prior_ratio :
    (∀ p : ParamDict, get_log_lik [] p = 0) ∧
    ∀ (rs : RandStream) (i : ℕ) (prev : ℝ),
      ratioAt [] 0.75 rs i prev =
        normPdf (proposalAt rs i prev) 1 1 / normPdf prev 1 1 := by
  refine ⟨fun p => rfl, fun rs i prev => ?_⟩
  rw [ratioAt, Real.exp_sub]
  simp only [logPost, get_log_lik_nil, get_log_prior, zero_add]
  rw [exp_normLogpdf _ _ _ one_pos, exp_normLogpdf _ _ _ one_pos]

/-- The loop body writes either the previous value or the proposal, depending
on the two comparisons — never any other value. -/
lemma stepVal_cases (data : List ℝ) (σ : ℝ) (rs : RandStream) (i : ℕ) (prev : ℝ) :
    stepVal data σ rs i prev = prev ∨ stepVal data σ rs i prev = proposalAt rs i prev := by
  rw [stepVal]
  split_ifs <;> simp

/-- C5: every chain entry at index `i ≥ 1` is either identical to the entry at
`i - 1` (rejected proposal) or equal to the proposal freshly drawn at
iteration `i` from that previous entry — never any other value. -/
theorem mcmc_entry_prev_or_proposal (data : List ℝ) (μ0 : ℝ) (n : ℕ) (rs : RandStream)
    (c : List ℝ) (i : ℕ) (hc : mcmc data μ0 n rs = some c) (h1 : 1 ≤ i) (hn : i < n) :
    ∃ prev, c.get? (i - 1) = some prev ∧
      (c.get? i = some prev ∨ c.get? i = some (proposalAt rs i prev)) := by
  have hn1 : 1 ≤ n := by omega
  rw [mcmc_eq_traceList data μ0 n rs hn1] at hc
  obtain rfl : ((List.range n).map (traceVal data 0.75 rs μ0)) = c := Option.some.inj hc
  refine ⟨traceVal data 0.75 rs μ0 (i - 1), ?_, ?_⟩
  · rw [List.get?_map, List.get?_range (by omega)]
    rfl
  · obtain ⟨j, rfl⟩ : ∃ j, i = j + 1 := ⟨i - 1, by omega⟩
    rw [List.get?_map, List.get?_range hn]
    rcases stepVal_cases data 0.75 rs (j + 1) (traceVal data 0.75 rs μ0 j) with h | h
    · exact Or.inl (congrArg some h)
    · exact Or.inr (congrArg some h)

/-- Witness for C5 at a concrete input. -/
theorem mcmc_entry_prev_or_proposal_witness :
    1 ≤ 1 ∧ 1 < 2 ∧
    ∃ prev, ((List.range 2).map (traceVal [] 0.75 rsZero 0)).get? 0 = some prev ∧
      (((List.range 2).map (traceVal [] 0.75 rsZero 0)).get? 1 = some prev ∨
       ((List.range 2).map (traceVal [] 0.75 rsZero 0)).get? 1 =
         some (proposalAt rsZero 1 prev)) :=
  ⟨by norm_num, by norm_num,
    mcmc_entry_prev_or_proposal [] 0 2 rsZero _ 1
      (mcmc_eq_traceList [] 0 2 rsZero (by norm_num)) (by norm_num) (by norm_num)⟩

/-- C6: two invocations with identical observations, initial mean and sample
count, whose random sources produce the same draws at every index, return
identical results. -/
theorem mcmc_deterministic (data : List ℝ) (μ0 : ℝ) (n : ℕ) (rs1 rs2 : RandStream)
    (hp : ∀ i, rs1.propNoise i = rs2.propNoise i)
    (hu : ∀ i, rs1.unif i = rs2.unif i) :
    mcmc data μ0 n rs1 = mcmc data μ0 n rs2 := by
  rcases Nat.eq_zero_or_pos n with rfl | hn
  · rw [mcmc_zero, mcmc_zero]
  · rw [mcmc_eq_traceList data μ0 n rs1 hn, mcmc_eq_traceList data μ0 n rs2 hn]
    exact congrArg some (List.map_congr_left fun i _ =>
      traceVal_stream_congr data 0.75 rs1 rs2 μ0 hp hu i)

/-- Witness for C6 at a concrete input: two syntactically different but
pointwise equal random sources. -/
theorem mcmc_deterministic_witness :
    (∀ i, rsZero.propNoise i = rsZero2.propNoise i) ∧
    (∀ i, rsZero.unif i = rsZero2.unif i) ∧
    mcmc [] 0 2 rsZero = mcmc [] 0 2 rsZero2 :=
  ⟨fun i => by simp [rsZero, rsZero2], fun i => by simp [rsZero, rsZero2],
    mcmc_deterministic [] 0 2 rsZero rsZero2
      (fun i => by simp [rsZero, rsZero2]) (fun i => by simp [rsZero, rsZero2])⟩

/-- C9: with `n_samples = 0` the write of the initial mean into entry 0 of the
zero-length trace array is out of bounds and the call fails; with
`n_samples ≥ 1` every write is in bounds and the call returns a chain. -/
theorem mcmc_zero_fails_pos_succeeds (data : List ℝ) (μ0 : ℝ) (rs : RandStream) :
    mcmc data μ0 0 rs = none ∧ ∀ n, 1 ≤ n → ∃ c, mcmc data μ0 n rs = some c :=
  ⟨mcmc_zero data μ0 rs, fun n hn => ⟨_, mcmc_eq_traceList data μ0 n rs hn⟩⟩

/-- Witness for C9 at a concrete input. -/
theorem mcmc_zero_fails_pos_succeeds_witness :
    1 ≤ 2 ∧ mcmc [] 0 0 rsZero = none ∧ ∃ c, mcmc [] 0 2 rsZero = some c :=
  ⟨by norm_num, (mcmc_zero_fails_pos_succeeds [] 0 rsZero).1,
    (mcmc_zero_fails_pos_succeeds [] 0 rsZero).2 2 (by norm_num)⟩

/-- C10: the chain depends on the observations only through the summed
per-observation log-densities; in particular two observation lists that are
permutations of each other give identical results under the same initial
mean, sample count and random draws. -/
theorem mcmc_perm_invariant (data1 data2 : List ℝ) (μ0 : ℝ) (n : ℕ) (rs : RandStream)
    (h : data1.Perm data2) :
    mcmc data1 μ0 n rs = mcmc data2 μ0 n rs := by
  rcases Nat.eq_zero_or_pos n with rfl | hn
  · rw [mcmc_zero, mcmc_zero]
  · rw [mcmc_eq_traceList data1 μ0 n rs hn, mcmc_eq_traceList data2 μ0 n rs hn]
    exact congrArg some (List.map_congr_left fun i _ =>
      traceVal_perm data1 data2 0.75 rs μ0 h i)

/-- Witness for C10 at a concrete input: the two-element swap permutation. -/
theorem mcmc_perm_invariant_witness :
    ([1, 2] : List ℝ).Perm [2, 1] ∧ mcmc [1, 2] 0 2 rsZero = mcmc [2, 1] 0 2 rsZero :=
  ⟨List.Perm.swap 2 1 [],
    mcmc_perm_invariant [1, 2] [2, 1] 0 2 rsZero (List.Perm.swap 2 1 [])⟩

/-- C8: throughout a run every chain entry after the first is produced by the
σ-generic loop body instantiated at the one constant `0.75`, and the
acceptance ratio evaluates the likelihood at both the proposed and the current
point through parameter dictionaries carrying that same `0.75`; nothing in
the loop alters it. -/
theorem mcmc_fixed_sigma (data : List ℝ) (μ0 : ℝ) (n : ℕ) (rs : RandStream)
    (h : 1 ≤ n) :
    (∃ c, mcmc data μ0 n rs = some c ∧
      ∀ i, i + 1 < n →
        c.get? (i + 1) = some (stepVal data 0.75 rs (i + 1) (traceVal data 0.75 rs μ0 i))) ∧
    ∀ (i : ℕ) (prev : ℝ),
      ratioAt data 0.75 rs i prev =
        Real.exp
          ((get_log_lik data ⟨proposalAt rs i prev, 0.75⟩ +
              get_log_prior ⟨proposalAt rs i prev, 0.75⟩ 1 1) -
            (get_log_lik data ⟨prev, 0.75⟩ + get_log_prior ⟨prev, 0.75⟩ 1 1)) := by
  refine ⟨⟨_, mcmc_eq_traceList data μ0 n rs h, fun i hi => ?_⟩, fun i prev => rfl⟩
  rw [List.get?_map, List.get?_range hi]
  rfl

/-- Witness for C8 at a concrete input. -/
theorem mcmc_fixed_sigma_witness :
    1 ≤ 2 ∧
    ((∃ c, mcmc [] 0 2 rsZero = some c ∧
      ∀ i, i + 1 < 2 →
        c.get? (i + 1) = some (stepVal [] 0.75 rsZero (i + 1) (traceVal [] 0.75 rsZero 0 i))) ∧
    ∀ (i : ℕ) (prev : ℝ),
      ratioAt [] 0.75 rsZero i prev =
        Real.exp
          ((get_log_lik [] ⟨proposalAt rsZero i prev, 0.75⟩ +
              get_log_prior ⟨proposalAt rsZero i prev, 0.75⟩ 1 1) -
            (get_log_lik [] ⟨prev, 0.75⟩ + get_log_prior ⟨prev, 0.75⟩ 1 1))) :=
  ⟨by norm_num, mcmc_fixed_sigma [] 0 2 rsZero (by norm_num)⟩

/-- Counterexample to C1 as stated: with no observations, initial mean 1,
proposal noise 1 and a uniform draw that lands exactly on the acceptance
ratio (a value in [0, 1)), the ratio does not exceed 1 and does not exceed
the drawn value, yet the sampler accepts the proposal instead of retaining
the previous chain value as the claim prescribes. -/
theorem mcmc_accept_tie_cex :
    ¬ (ratioAt [] 0.75 rsTie 1 1 > 1) ∧
    0 ≤ rsTie.unif 1 ∧ rsTie.unif 1 < 1 ∧
    ¬ (ratioAt [] 0.75 rsTie 1 1 > rsTie.unif 1) ∧
    traceVal [] 0.75 rsTie 1 1 ≠ traceVal [] 0.75 rsTie 1 0 := by
  have hru : ratioAt [] 0.75 rsTie 1 1 = rsTie.unif 1 := rfl
  have hneg : logPost [] 0.75 (1 + 0.1 * 1) - logPost [] 0.75 1 < 0 := by
    simp only [logPost, get_log_lik_nil, get_log_prior, normLogpdf, zero_add]
    ring_nf
    norm_num
  have hlt1 : ratioAt [] 0.75 rsTie 1 1 < 1 := by
    have : ratioAt [] 0.75 rsTie 1 1 =
        Real.exp (logPost [] 0.75 (1 + 0.1 * 1) - logPost [] 0.75 1) := rfl
    rw [this, Real.exp_lt_one_iff]
    exact hneg
  have hnot1 : ¬ (ratioAt [] 0.75 rsTie 1 1 > 1) := not_lt_of_lt hlt1
  have hnotu : ¬ (rsTie.unif 1 > ratioAt [] 0.75 rsTie 1 1) := by
    rw [hru]
    exact lt_irrefl _
  have htrace : traceVal [] 0.75 rsTie 1 1 = 1 + 0.1 * 1 := by
    show stepVal [] 0.75 rsTie 1 1 = 1 + 0.1 * 1
    rw [stepVal, if_neg hnot1, if_neg hnotu]
    rfl
  refine ⟨hnot1, (Real.exp_pos _).le, hru ▸ hlt1, ?_, ?_⟩
  · rw [hru]
    exact lt_irrefl _
  · rw [htrace]
    show (1 + 0.1 * 1 : ℝ) ≠ 1
    norm_num

/-- C1 (amended): at every iteration, if the acceptance ratio exceeds 1 the
proposal is accepted unconditionally; otherwise a uniform random value is
drawn and the previous chain value is retained exactly when the drawn value
exceeds the ratio, with the proposal accepted otherwise (so a draw exactly
equal to the ratio accepts). -/
theorem mcmc_acceptance_rule (data : List ℝ) (μ0 : ℝ) (n : ℕ) (rs : RandStream)
    (c : List ℝ) (i : ℕ) (hc : mcmc data μ0 n rs = some c) (hi : i + 1 < n) :
    ∃ prev, c.get? i = some prev ∧
      c.get? (i + 1) = some
        (if ratioAt data 0.75 rs (i + 1) prev > 1 then proposalAt rs (i + 1) prev
         else if rs.unif (i + 1) > ratioAt data 0.75 rs (i + 1) prev then prev
         else proposalAt rs (i + 1) prev) := by
  have hn1 : 1 ≤ n := by omega
  rw [mcmc_eq_traceList data μ0 n rs hn1] at hc
  obtain rfl : ((List.range n).map (traceVal data 0.75 rs μ0)) = c := Option.some.inj hc
  refine ⟨traceVal data 0.75 rs μ0 i, ?_, ?_⟩
  · rw [List.get?_map, List.get?_range (by omega)]
    rfl
  · rw [List.get?_map, List.get?_range hi]
    rfl

/-- Witness for the amended C1 at a concrete input. -/
theorem mcmc_acceptance_rule_witness :
    0 + 1 < 2 ∧
    ∃ prev, ((List.range 2).map (traceVal [] 0.75 rsZero 0)).get? 0 = some prev ∧
      ((List.range 2).map (traceVal [] 0.75 rsZero 0)).get? 1 = some
        (if ratioAt [] 0.75 rsZero 1 prev > 1 then proposalAt rsZero 1 prev
         else if rsZero.unif 1 > ratioAt [] 0.75 rsZero 1 prev then prev
         else proposalAt rsZero 1 prev) :=
  ⟨by norm_num,
    mcmc_acceptance_rule [] 0 2 rsZero _ 0
      (mcmc_eq_traceList [] 0 2 rsZero (by norm_num)) (by norm_num)⟩
